import Mathlib

/-!
Shallow embedding of the transformation pipeline of `src/src/App.tsx`
(`detectColumnType` and the `applyTransformations` callback).

JS machine numbers are modelled as `ℚ`, with `Option ℚ` wherever the code can
produce `NaN` (`none` = NaN).  A JS value stored in a row is a `Value`; a row
is an insertion-ordered association list, matching JS object semantics for the
operations this pipeline performs (property read, property write, spread).
Host builtins (`Number`, `String`, `eval`, `Array.prototype.sort`,
`Object.entries` ordering, `localeCompare`, `Date.parse`) are not part of the
repository source; each is modelled by a definition whose doc comment states
the modelled behaviour and its scope.
-/

/-- A JS scalar value as it occurs in a data row.  `vUndef` is an
explicitly-stored `undefined`, `vNaN` the number NaN (kept apart from `vNum`
because every numeric path in the code tests `isNaN`). -/
inductive Value where
  | vStr (s : String)
  | vNum (q : ℚ)
  | vBool (b : Bool)
  | vNull
  | vUndef
  | vNaN
deriving DecidableEq, Repr

/-- A data row: a JS object, i.e. an insertion-ordered map from property name
to value. -/
abbrev Row := List (String × Value)

/-- Property read `row[k]`: `none` means `undefined` (absent key, or a key
explicitly holding `undefined`). -/
def jsGet (r : Row) (k : String) : Option Value :=
  match r.find? (fun p => p.1 == k) with
  | some (_, .vUndef) => none
  | some (_, v) => some v
  | none => none

/-- Property write `{...row, [k]: v}` / `row[k] = v`: update in place if the
key exists (a JS object holds each key at most once), else append. -/
def jsInsert : Row → String → Value → Row
  | [], k, v => [(k, v)]
  | p :: r, k, v => if p.1 == k then (k, v) :: r else p :: jsInsert r k v

/-- Model of the JS whitespace class used by `trim` and `\s`. -/
def jsWs (c : Char) : Bool :=
  c == ' ' || c == '\t' || c == '\n' || c == '\r'

/-- Model of the JS `String.prototype.trim` builtin on a char list. -/
def jsTrimChars (s : List Char) : List Char :=
  ((s.dropWhile jsWs).reverse.dropWhile jsWs).reverse

/-- Model of the JS `String.prototype.trim` builtin. -/
def jsTrimS (s : String) : String :=
  String.mk (jsTrimChars s.data)

/-- Digits of a decimal literal to a natural number. -/
def digitsToNat (ds : List Char) : ℕ :=
  ds.foldl (fun a c => a * 10 + (c.toNat - 48)) 0

/-- Unsigned decimal literal: `D+`, `D+.D*` or `.D+` (the forms accepted by
the JS `Number` builtin for plain decimals). -/
def parseDec (t : List Char) : Option ℚ :=
  let ip := t.takeWhile Char.isDigit
  let rest := t.drop ip.length
  match rest with
  | [] => if ip.isEmpty then none else some (digitsToNat ip : ℚ)
  | '.' :: fp =>
      if fp.all Char.isDigit && !(ip.isEmpty && fp.isEmpty) then
        some ((digitsToNat ip : ℚ) + (digitsToNat fp : ℚ) / (10 ^ fp.length))
      else none
  | _ => none

/-- Optionally signed decimal literal. -/
def parseSigned : List Char → Option ℚ
  | '-' :: t => (parseDec t).map (fun q => -q)
  | '+' :: t => parseDec t
  | t => parseDec t

/-- Model of the JS `Number(string)` builtin (`none` = NaN): trims whitespace,
maps the empty string to `0`, and parses optionally signed plain decimal
literals.  Exponent, hexadecimal and `Infinity` forms are outside the model
and yield `none`. -/
def jsStrNumber (s : String) : Option ℚ :=
  let t := jsTrimChars s.data
  if t.isEmpty then some 0 else parseSigned t

/-- Model of the JS `Number(v)` coercion on a possibly-undefined value
(`none` = NaN). -/
def jsNumber : Option Value → Option ℚ
  | none => none
  | some (.vNum q) => some q
  | some (.vStr s) => jsStrNumber s
  | some (.vBool b) => some (if b then 1 else 0)
  | some .vNull => some 0
  | some .vUndef => none
  | some .vNaN => none

/-- Model of the JS `String(number)` builtin on the rational model: integers
print in decimal, terminating decimals with a fraction point; a rational with
no terminating decimal expansion (unreachable from exact double arithmetic)
falls back to a `num/den` form. -/
def jsNumToString (q : ℚ) : String :=
  let sign := if q < 0 then "-" else ""
  let n := q.num.natAbs
  let d := q.den
  if d = 1 then sign ++ toString n
  else
    match (List.range 64).find? (fun k => 10 ^ k % d == 0) with
    | some k =>
        let m := n * 10 ^ k / d
        let s := toString m
        let s := if s.length ≤ k then
            String.mk (List.replicate (k + 1 - s.length) '0') ++ s
          else s
        sign ++ (s.take (s.length - k)) ++ "." ++ (s.drop (s.length - k))
    | none => sign ++ toString n ++ "/" ++ toString d

/-- Model of the JS `String(v)` coercion. -/
def jsToString : Value → String
  | .vStr s => s
  | .vNum q => jsNumToString q
  | .vBool b => if b then "true" else "false"
  | .vNull => "null"
  | .vUndef => "undefined"
  | .vNaN => "NaN"

/-- Model of `String(v)` where `v` may be `undefined`. -/
def jsToStringU : Option Value → String
  | none => "undefined"
  | some v => jsToString v

/-- JS truthiness of a possibly-undefined value. -/
def jsTruthy : Option Value → Bool
  | none => false
  | some (.vStr s) => !(s == "")
  | some (.vNum q) => !(q == 0)
  | some (.vBool b) => b
  | some .vNull => false
  | some .vUndef => false
  | some .vNaN => false

/-- Comparison `a > b` on possibly-NaN numbers: false when either side is
NaN. -/
def optGtQ (a b : Option ℚ) : Bool :=
  match a, b with
  | some x, some y => decide (x > y)
  | _, _ => false

/-- Comparison `a < b` on possibly-NaN numbers. -/
def optLtQ (a b : Option ℚ) : Bool :=
  match a, b with
  | some x, some y => decide (x < y)
  | _, _ => false

/-- Comparison `a >= b` on possibly-NaN numbers. -/
def optGeQ (a b : Option ℚ) : Bool :=
  match a, b with
  | some x, some y => decide (x ≥ y)
  | _, _ => false

/-- Comparison `a <= b` on possibly-NaN numbers. -/
def optLeQ (a b : Option ℚ) : Bool :=
  match a, b with
  | some x, some y => decide (x ≤ y)
  | _, _ => false

/-- Comparison `a === b` on possibly-NaN numbers: `NaN === x` is false. -/
def optEqQ (a b : Option ℚ) : Bool :=
  match a, b with
  | some x, some y => decide (x = y)
  | _, _ => false

/-- Substring test (model of the JS `String.prototype.includes` builtin):
does `needle` occur contiguously inside `hay`? -/
def strIncludes (needle : List Char) : List Char → Bool
  | [] => needle.isEmpty
  | c :: cs => needle.isPrefixOf (c :: cs) || strIncludes needle cs

/-- Filter configuration (`FilterConfig` in the source).  The operator is a
plain string so that the runtime possibility of an unknown operator is
representable, as the filter switch's `default` branch anticipates. -/
structure FilterConfig where
  column : String
  operator : String
  value : String
  value2 : Option String := none
deriving DecidableEq, Repr

/-- The per-row filter predicate: the body of the `data.filter(row => ...)`
switch in `applyTransformations`. -/
def filterPred (cfg : FilterConfig) (row : Row) : Bool :=
  let value := jsGet row cfg.column
  let strValue := (jsToStringU value).toLower
  let filterValue := cfg.value.toLower
  let filterValue2 := cfg.value2.map String.toLower
  if cfg.operator == "equals" then
    (jsToStringU value).toLower == filterValue
  else if cfg.operator == "contains" then
    strIncludes filterValue.data strValue.data
  else if cfg.operator == "startsWith" then
    filterValue.data.isPrefixOf strValue.data
  else if cfg.operator == "endsWith" then
    filterValue.data.isSuffixOf strValue.data
  else if cfg.operator == "gt" then
    optGtQ (jsNumber value) (jsStrNumber filterValue)
  else if cfg.operator == "lt" then
    optLtQ (jsNumber value) (jsStrNumber filterValue)
  else if cfg.operator == "gte" then
    optGeQ (jsNumber value) (jsStrNumber filterValue)
  else if cfg.operator == "lte" then
    optLeQ (jsNumber value) (jsStrNumber filterValue)
  else if cfg.operator == "between" then
    let num := jsNumber value
    optGeQ num (jsStrNumber filterValue) &&
      optLeQ num (match filterValue2 with
        | some s => jsStrNumber s
        | none => none)
  else if cfg.operator == "isEmpty" then
    !(jsTruthy value)
  else if cfg.operator == "isNotEmpty" then
    jsTruthy value
  else
    true

/-- The filter stage: `filters.forEach(filter => { data = data.filter(...) })`. -/
def filterStage (cfgs : List FilterConfig) (data : List Row) : List Row :=
  cfgs.foldl (fun d cfg => d.filter (filterPred cfg)) data

/-- Sort direction. -/
inductive SortDir where
  | asc
  | desc
deriving DecidableEq, Repr

/-- Sort configuration (`SortConfig` in the source). -/
structure SortConfig where
  column : String
  direction : SortDir
deriving DecidableEq, Repr

/-- Model of the JS `String.prototype.localeCompare` builtin: the sign of the
default-locale order, modelled as the sign of the character-wise string
order (in particular it is `0` exactly on equal strings). -/
def jsLocaleCompare (a b : String) : ℚ :=
  if a = b then 0 else if a < b then -1 else 1

/-- The multi-key comparator passed to `data.sort` in the sort stage: numeric
subtraction when both values are JS numbers of the `vNum` kind, else
`localeCompare` of the string forms; the first non-zero comparison wins,
negated for a descending key. -/
def compareRows (keys : List SortConfig) (a b : Row) : ℚ :=
  match keys with
  | [] => 0
  | k :: rest =>
    let aVal := jsGet a k.column
    let bVal := jsGet b k.column
    let comparison : ℚ :=
      match aVal, bVal with
      | some (.vNum x), some (.vNum y) => x - y
      | _, _ => jsLocaleCompare (jsToStringU aVal) (jsToStringU bVal)
    if comparison ≠ 0 then
      (match k.direction with
       | .asc => comparison
       | .desc => -comparison)
    else compareRows rest a b

/-- Stable insertion of `x` into `l`: `x` is placed before the first element
`y` with `le x y`. -/
def insertLe {α : Type} (le : α → α → Bool) (x : α) : List α → List α
  | [] => [x]
  | y :: ys => if le x y then x :: y :: ys else y :: insertLe le x ys

/-- Stable insertion sort.  Models the order-stable `Array.prototype.sort`
builtin (stable as required by the ECMAScript specification) with the
comparator abstracted to the boolean `le a b ↔ comparator a b ≤ 0`. -/
def sortLe {α : Type} (le : α → α → Bool) : List α → List α
  | [] => []
  | x :: xs => insertLe le x (sortLe le xs)

/-- The sort stage: `if (sortConfig.length > 0) data.sort(comparator)`. -/
def sortStage (keys : List SortConfig) (data : List Row) : List Row :=
  if keys.isEmpty then data
  else sortLe (fun a b => decide (compareRows keys a b ≤ 0)) data

/-- Inferred column type (`ColumnType` in the source). -/
inductive ColumnType where
  | string
  | number
  | boolean
  | date
  | empty
deriving DecidableEq, Repr

/-- The emptiness test of `detectColumnType`:
`v !== null && v !== undefined && v !== ''` negated. -/
def isEmptyVal (v : Value) : Bool :=
  v == .vNull || v == .vUndef || v == .vStr ""

/-- The boolean-token test of `detectColumnType`. -/
def isBoolVal (v : Value) : Bool :=
  match v with
  | .vBool _ => true
  | _ => ["true", "false", "1", "0", "yes", "no"].contains ((jsToString v).toLower)

/-- Model of the JS `Date.parse` builtin restricted to `YYYY-MM-DD` shaped
strings; the host-specific menagerie of other parsable date formats is
outside the model (no claim depends on the date branch). -/
def jsDateParsable (v : Value) : Bool :=
  match v with
  | .vStr s =>
      match s.data with
      | [y1, y2, y3, y4, '-', m1, m2, '-', d1, d2] =>
          [y1, y2, y3, y4, m1, m2, d1, d2].all Char.isDigit
      | _ => false
  | _ => false

/-- The source's `detectColumnType`: filter out empties, sample the first
100 values, then classify with the fixed priority number, boolean, date,
string. -/
def detectColumnType (values : List Value) : ColumnType :=
  let nonEmpty := values.filter (fun v => !(isEmptyVal v))
  if nonEmpty.isEmpty then .empty
  else
    let sample := nonEmpty.take 100
    if sample.all (fun v => (jsNumber (some v)).isSome && !(v == .vStr "")) then
      .number
    else if sample.all isBoolVal then .boolean
    else if sample.all jsDateParsable then .date
    else .string

/-- First-appearance deduplication: the key set of a JS object built by
inserting each list element in order (`_.groupBy` inserts a key when its
group is first created). -/
def dedupFirst (l : List String) : List String :=
  l.foldl (fun acc x => if x ∈ acc then acc else acc ++ [x]) []

/-- Is `s` a canonical array-index property key (the decimal form of an
integer below `2^32 - 1`: all digits, no leading zero except `"0"` itself)?
Such keys are enumerated first, in ascending numeric order, by the JS
own-property order. -/
def isArrayIndexKey (s : String) : Bool :=
  !s.data.isEmpty && s.data.all Char.isDigit &&
    (s.data.length == 1 || !(s.data.head? == some '0')) &&
    digitsToNat s.data < 4294967295

/-- Numeric value of an array-index key (meaningful on digit strings, which
are the only ones reaching the sorted partition). -/
def arrayIndexVal (s : String) : ℕ :=
  digitsToNat s.data

/-- Model of the JS own-property enumeration order (as observed through
`Object.entries`): canonical array-index keys first in ascending numeric
order, then the remaining string keys in insertion order. -/
def jsOwnKeysOrder (ks : List String) : List String :=
  sortLe (fun a b => decide (arrayIndexVal a ≤ arrayIndexVal b))
      (ks.filter isArrayIndexKey)
    ++ ks.filter (fun k => !(isArrayIndexKey k))

/-- Model of the lodash `_.min` builtin: `none` (JS `undefined`) on the empty
list. -/
def listMinQ : List ℚ → Option ℚ
  | [] => none
  | x :: xs => some (xs.foldl min x)

/-- Model of the lodash `_.max` builtin. -/
def listMaxQ : List ℚ → Option ℚ
  | [] => none
  | x :: xs => some (xs.foldl max x)

/-- Aggregation operation (`AggregationConfig['operation']` in the source;
`std` is accepted by the type but has no case in the reduction switch). -/
inductive AggOp where
  | sum
  | mean
  | median
  | count
  | min
  | max
  | std
deriving DecidableEq, Repr

/-- Aggregation configuration.  The source interface also declares an unused
optional `groupBy` field that the pipeline never reads; it is omitted. -/
structure AggregationConfig where
  column : String
  operation : AggOp
deriving DecidableEq, Repr

/-- The `_.groupBy(data, aggregation.column)` grouping key of a row: the
value of the aggregation column coerced to a property key. -/
def aggGroupKey (cfg : AggregationConfig) (row : Row) : String :=
  jsToStringU (jsGet row cfg.column)

/-- The distinct grouping keys in first-appearance order (the insertion order
of the `_.groupBy` result object). -/
def aggFirstKeys (cfg : AggregationConfig) (data : List Row) : List String :=
  dedupFirst (data.map (aggGroupKey cfg))

/-- The grouping keys in the order `Object.entries` enumerates them. -/
def aggKeysOrdered (cfg : AggregationConfig) (data : List Row) : List String :=
  jsOwnKeysOrder (aggFirstKeys cfg data)

/-- The rows of one group (in input order, as `_.groupBy` collects them). -/
def aggGroupRows (cfg : AggregationConfig) (data : List Row) (key : String) :
    List Row :=
  data.filter (fun r => aggGroupKey cfg r == key)

/-- The reduction input `values`: the numeric parses of the group's
aggregation-column values
with NaN entries discarded
(`rows.map(r => Number(r[column])).filter(n => !isNaN(n))`). -/
def aggVals (cfg : AggregationConfig) (data : List Row) (key : String) :
    List ℚ :=
  (aggGroupRows cfg data key).filterMap (fun r => jsNumber (jsGet r cfg.column))

/-- One summary row of the aggregation stage:
`{ [column]: key, _count: rows.length }` plus `_value` from the reduction
switch.  A reduction that produces JS `undefined`
(`_.min`/`_.max`/lodash `sortBy` indexing on an empty list) assigns
`undefined` to `_value`, modelled by storing `vUndef`; the `std` operation
has no case in the switch, so `_value` is never assigned; `_.mean([])` is
NaN. -/
def aggRow (cfg : AggregationConfig) (data : List Row) (key : String) : Row :=
  let rows := aggGroupRows cfg data key
  let values := aggVals cfg data key
  let base := jsInsert (jsInsert [] cfg.column (.vStr key)) "_count"
    (.vNum (rows.length : ℚ))
  match cfg.operation with
  | .sum => jsInsert base "_value" (.vNum values.sum)
  | .mean => jsInsert base "_value"
      (if values.isEmpty then .vNaN
       else .vNum (values.sum / (values.length : ℚ)))
  | .median =>
      match (sortLe (fun a b => decide (a ≤ b)) values).get?
          (values.length / 2) with
      | some q => jsInsert base "_value" (.vNum q)
      | none => jsInsert base "_value" .vUndef
  | .count => jsInsert base "_value" (.vNum (rows.length : ℚ))
  | .min =>
      match listMinQ values with
      | some q => jsInsert base "_value" (.vNum q)
      | none => jsInsert base "_value" .vUndef
  | .max =>
      match listMaxQ values with
      | some q => jsInsert base "_value" (.vNum q)
      | none => jsInsert base "_value" .vUndef
  | .std => base

/-- The aggregation stage:
`Object.entries(_.groupBy(data, column)).map(([key, rows]) => ...)`. -/
def aggregationStage (cfg : AggregationConfig) (data : List Row) : List Row :=
  (aggKeysOrdered cfg data).map (aggRow cfg data)

/-- Pivot aggregation selector. -/
inductive PivotAgg where
  | sum
  | count
  | avg
  | min
  | max
deriving DecidableEq, Repr

/-- Pivot configuration (`PivotConfig` in the source; `columns` is accepted
but never consulted by the reduction). -/
structure PivotConfig where
  rows : List String
  columns : List String
  values : List String
  aggregation : PivotAgg
deriving DecidableEq, Repr

/-- One element of the composite key: `Array.prototype.join` renders
`undefined`/`null` elements as the empty string. -/
def joinElem : Option Value → String
  | none => ""
  | some .vNull => ""
  | some .vUndef => ""
  | some v => jsToString v

/-- The composite pivot key:
`pivotConfig.rows.map(r => row[r]).join('::')`. -/
def pivotKeyOf (cfg : PivotConfig) (row : Row) : String :=
  String.intercalate "::" (cfg.rows.map (fun r => joinElem (jsGet row r)))

/-- Distinct composite keys in first-appearance order. -/
def pivotFirstKeys (cfg : PivotConfig) (data : List Row) : List String :=
  dedupFirst (data.map (pivotKeyOf cfg))

/-- Composite keys in `Object.entries` enumeration order. -/
def pivotKeysOrdered (cfg : PivotConfig) (data : List Row) : List String :=
  jsOwnKeysOrder (pivotFirstKeys cfg data)

/-- The rows of one pivot group. -/
def pivotGroupRows (cfg : PivotConfig) (data : List Row) (key : String) :
    List Row :=
  data.filter (fun r => pivotKeyOf cfg r == key)

/-- The numeric-parsed values of one value column across a pivot group. -/
def pivotVals (cfg : PivotConfig) (data : List Row) (key : String)
    (val : String) : List ℚ :=
  (pivotGroupRows cfg data key).filterMap (fun r => jsNumber (jsGet r val))

/-- A map with the element's position, counting from `i`. -/
def mapIdxFrom {α β : Type} (i : ℕ) (f : ℕ → α → β) : List α → List β
  | [] => []
  | a :: as => f i a :: mapIdxFrom (i + 1) f as

/-- One output row of the pivot stage: the row-label columns from the split
key (`parts[i]`, `undefined` past the end), then one reduced field
`<value>_<agg>` per value column.  As in `aggRow`, a reduction producing
JS `undefined` stores `vUndef`. -/
def pivotRow (cfg : PivotConfig) (data : List Row) (key : String) : Row :=
  let rows := pivotGroupRows cfg data key
  let parts := key.splitOn "::"
  let labels := mapIdxFrom 0
    (fun i r => (r, match parts.get? i with
      | some p => Value.vStr p
      | none => Value.vUndef)) cfg.rows
  let base := labels.foldl (fun acc kv => jsInsert acc kv.1 kv.2) []
  cfg.values.foldl (fun acc val =>
    let vs := rows.filterMap (fun r => jsNumber (jsGet r val))
    match cfg.aggregation with
    | .sum => jsInsert acc (val ++ "_sum") (.vNum vs.sum)
    | .count => jsInsert acc (val ++ "_count") (.vNum (vs.length : ℚ))
    | .avg => jsInsert acc (val ++ "_avg")
        (if vs.isEmpty then .vNaN else .vNum (vs.sum / (vs.length : ℚ)))
    | .min =>
        match listMinQ vs with
        | some q => jsInsert acc (val ++ "_min") (.vNum q)
        | none => jsInsert acc (val ++ "_min") .vUndef
    | .max =>
        match listMaxQ vs with
        | some q => jsInsert acc (val ++ "_max") (.vNum q)
        | none => jsInsert acc (val ++ "_max") .vUndef) base

/-- The pivot stage: applied only when both `rows` and `values` are
non-empty, else a passthrough. -/
def pivotStage (cfg : Option PivotConfig) (data : List Row) : List Row :=
  match cfg with
  | some c =>
      if c.rows.length > 0 && c.values.length > 0 then
        (pivotKeysOrdered c data).map (pivotRow c data)
      else data
  | none => data

/-- Case-insensitive character equality (the regex `i` flag). -/
def ciEq (a b : Char) : Bool :=
  a.toLower == b.toLower

/-- Does `s` start with `pat`, case-insensitively? -/
def ciStarts : List Char → List Char → Bool
  | [], _ => true
  | _ :: _, [] => false
  | p :: ps, c :: cs => ciEq p c && ciStarts ps cs

/-- Split `s` at the first occurrence of `stop`: the (possibly empty) run
before it and the remainder after it; `none` when `stop` does not occur. -/
def splitStop (stop : Char) : List Char → Option (List Char × List Char)
  | [] => none
  | c :: cs =>
      if c == stop then some ([], cs)
      else (splitStop stop cs).map (fun pr => (c :: pr.1, pr.2))

/-- Like `splitStop` but the run before `stop` must be non-empty (the `+` of
`[^X]+` in the source regexes). -/
def splitStop1 (stop : Char) (s : List Char) : Option (List Char × List Char) :=
  match splitStop stop s with
  | some (b, r) => if b.isEmpty then none else some (b, r)
  | none => none

/-- Match `NAME(` case-insensitively at the head of `s`, then a non-empty
`)`-free body and the closing `)`; return body and remainder.  This is the
anchored form of the source regexes `/SUM\(([^)]+)\)/gi` etc. -/
def tryCall (name : List Char) (s : List Char) : Option (List Char × List Char) :=
  if ciStarts (name ++ ['(']) s then splitStop1 ')' (s.drop (name.length + 1))
  else none

/-- Fuelled scanner for `String.prototype.replace` with a global
`NAME(body)` regex: at each position try an anchored match, emit `f body`
and continue after the match, else emit the character and advance.  Fuel at
least the input length makes the fuel bound unreachable. -/
def replaceCallsF (name : List Char) (f : List Char → List Char) :
    ℕ → List Char → List Char
  | 0, s => s
  | _ + 1, [] => []
  | n + 1, c :: cs =>
    match tryCall name (c :: cs) with
    | some (body, rest) => f body ++ replaceCallsF name f n rest
    | none => c :: replaceCallsF name f n cs

/-- The replace call `s.replace(/NAME\(([^)]+)\)/gi, (_, body) => f body)`. -/
def replaceCalls (name : List Char) (f : List Char → List Char)
    (s : List Char) : List Char :=
  replaceCallsF name f s.length s

/-- Anchored match of `/IF\(([^,]+),([^,]+),([^)]+)\)/i`: the three captures
and the remainder. -/
def tryIfCall (s : List Char) :
    Option (List Char × List Char × List Char × List Char) :=
  if ciStarts ['I', 'F', '('] s then
    match splitStop1 ',' (s.drop 3) with
    | some (c1, r1) =>
      match splitStop1 ',' r1 with
      | some (c2, r2) =>
        match splitStop1 ')' r2 with
        | some (c3, r3) => some (c1, c2, c3, r3)
        | none => none
      | none => none
    | none => none
  else none

/-- Fuelled global-replace scanner for the IF regex. -/
def replaceIfF (f : List Char → List Char → List Char → List Char) :
    ℕ → List Char → List Char
  | 0, s => s
  | _ + 1, [] => []
  | n + 1, c :: cs =>
    match tryIfCall (c :: cs) with
    | some (c1, c2, c3, rest) => f c1 c2 c3 ++ replaceIfF f n rest
    | none => c :: replaceIfF f n cs

/-- The replace call `s.replace(/IF\(([^,]+),([^,]+),([^)]+)\)/gi, ...)`. -/
def replaceIf (f : List Char → List Char → List Char → List Char)
    (s : List Char) : List Char :=
  replaceIfF f s.length s

/-- Fuelled global-replace of a literal pattern (the `/ROW\(\)/g` regex,
which has no captures and no `i` flag). -/
def replaceLitF (pat rep : List Char) : ℕ → List Char → List Char
  | 0, s => s
  | _ + 1, [] => []
  | n + 1, c :: cs =>
    if pat.isPrefixOf (c :: cs) then
      rep ++ replaceLitF pat rep n ((c :: cs).drop pat.length)
    else c :: replaceLitF pat rep n cs

/-- The replace call `s.replace(/ROW\(\)/g, rep)` generalised to a literal
pattern. -/
def replaceLit (pat rep : List Char) (s : List Char) : List Char :=
  replaceLitF pat rep s.length s

/-- The regex class `[A-Za-z_]` of the condition and identifier regexes. -/
def isIdentCh (c : Char) : Bool :=
  (('a' ≤ c && c ≤ 'z') || ('A' ≤ c && c ≤ 'Z')) || c == '_'

/-- The regex class `[0-9.]`. -/
def isDigitDot (c : Char) : Bool :=
  c.isDigit || c == '.'

/-- The comparison-operator tokens of the IF-condition regex, as written in
the source: the inequality operators appear HTML-escaped
(`&gt;=|&lt;=|&gt;|&lt;|=|==|!=`), and the alternatives are tried in this
order. -/
inductive CondOp where
  | ge
  | le
  | gt
  | lt
  | eqSingle
  | eqDouble
  | ne
deriving DecidableEq, Repr

/-- The operator alternatives in the order the regex alternation lists
them. -/
def condOps : List (List Char × CondOp) :=
  [("&gt;=".data, .ge), ("&lt;=".data, .le), ("&gt;".data, .gt),
   ("&lt;".data, .lt), ("=".data, .eqSingle), ("==".data, .eqDouble),
   ("!=".data, .ne)]

/-- The switch on the matched operator token: `===`-style comparison of the
two `Number()` results (false on NaN except for `!=`). -/
def evalCondOp : CondOp → Option ℚ → Option ℚ → Bool
  | .gt, a, b => optGtQ a b
  | .lt, a, b => optLtQ a b
  | .ge, a, b => optGeQ a b
  | .le, a, b => optLeQ a b
  | .eqSingle, a, b => optEqQ a b
  | .eqDouble, a, b => optEqQ a b
  | .ne, a, b => !(optEqQ a b)

/-- Try the operator alternatives in order at the head of `s`; on success
also consume `\s*` and a non-empty `[0-9.]+` run, returning the operator,
the digit run and the remainder (regex backtracking across the
alternation). -/
def tryOpNum : List (List Char × CondOp) → List Char →
    Option (CondOp × List Char × List Char)
  | [], _ => none
  | (pat, op) :: rest, s =>
    if pat.isPrefixOf s then
      let r := (s.drop pat.length).dropWhile jsWs
      let ds := r.takeWhile isDigitDot
      if ds.isEmpty then tryOpNum rest s
      else some (op, ds, r.drop ds.length)
    else tryOpNum rest s

/-- Anchored match of the condition regex
`/([A-Za-z_]+)\s*(&gt;=|&lt;=|&gt;|&lt;|=|==|!=)\s*([0-9.]+)/` at the head
of `s`, already yielding the replacement text `String(res)` computed from
the row. -/
def tryCondMatch (row : Row) (s : List Char) :
    Option (List Char × List Char) :=
  let ident := s.takeWhile isIdentCh
  if ident.isEmpty then none
  else
    let r := (s.drop ident.length).dropWhile jsWs
    match tryOpNum condOps r with
    | some (op, ds, rest) =>
        let rowVal := jsNumber (jsGet row (String.mk ident))
        let compVal := jsStrNumber (String.mk ds)
        let res := evalCondOp op rowVal compVal
        some ((if res then "true" else "false").data, rest)
    | none => none

/-- Fuelled global-replace scanner for the condition regex. -/
def condRewriteF (row : Row) : ℕ → List Char → List Char
  | 0, s => s
  | _ + 1, [] => []
  | n + 1, c :: cs =>
    match tryCondMatch row (c :: cs) with
    | some (rep, rest) => rep ++ condRewriteF row n rest
    | none => c :: condRewriteF row n cs

/-- The rewriting of an IF condition against the current row. -/
def condRewrite (row : Row) (s : List Char) : List Char :=
  condRewriteF row s.length s

/-- Model of the JS `eval` builtin as applied to a rewritten IF condition:
the rewriting produces the boolean literals `true`/`false` (possibly with
surrounding whitespace), which evaluate to themselves; any other condition
text (for example one still containing unresolved identifiers) is modelled
as an evaluation failure (`none`), which the enclosing `catch` turns into
the false branch. -/
def jsEvalCondBool (s : List Char) : Option Bool :=
  let t := jsTrimChars s
  if t = "true".data then some true
  else if t = "false".data then some false
  else none

/-- The IF-replacement callback: rewrite the condition, `eval` it, and on
truth return the trimmed true-branch text, else (including on evaluation
failure) the trimmed false-branch text. -/
def ifHandler (row : Row) (c1 c2 c3 : List Char) : List Char :=
  match jsEvalCondBool (condRewrite row c1) with
  | some true => jsTrimChars c2
  | some false => jsTrimChars c3
  | none => jsTrimChars c3

/-- The disjunction `row[col] || ''`: the value when truthy, else the empty
string. -/
def jsOrEmpty (o : Option Value) : Value :=
  match o with
  | some v => if jsTruthy (some v) then v else .vStr ""
  | none => .vStr ""

/-- The numeric parses (NaN discarded) of a column over rows `0..idx`
inclusive: `data.slice(0, idx + 1).map(r => Number(r[col])).filter(...)`. -/
def prefixVals (data : List Row) (col : String) (idx : ℕ) : List ℚ :=
  (data.take (idx + 1)).filterMap (fun r => jsNumber (jsGet r col))

/-- The SUM-replacement callback: the running total as a string. -/
def sumReplacement (data : List Row) (idx : ℕ) (body : List Char) : List Char :=
  (jsNumToString (prefixVals data (jsTrimS (String.mk body)) idx).sum).data

/-- The AVG-replacement callback: the running mean, `0` when no value
parses. -/
def avgReplacement (data : List Row) (idx : ℕ) (body : List Char) : List Char :=
  let vs := prefixVals data (jsTrimS (String.mk body)) idx
  (jsNumToString (if vs.isEmpty then 0 else vs.sum / (vs.length : ℚ))).data

/-- The LEN-replacement callback:
`String(String(row[col] || '').length)`. -/
def lenReplacement (row : Row) (body : List Char) : List Char :=
  (toString (jsToString (jsOrEmpty (jsGet row (jsTrimS (String.mk body))))).length).data

/-- The full textual rewriting of one formula for one row: SUM, AVG, LEN,
IF, then ROW, in the chained `.replace` order of the source. -/
def rewriteFormula (data : List Row) (row : Row) (idx : ℕ)
    (s : List Char) : List Char :=
  let s1 := replaceCalls "SUM".data (sumReplacement data idx) s
  let s2 := replaceCalls "AVG".data (avgReplacement data idx) s1
  let s3 := replaceCalls "LEN".data (lenReplacement row) s2
  let s4 := replaceIf (ifHandler row) s3
  replaceLit "ROW()".data (toString (idx + 1)).data s4

/-- The identifier-substitution pass
`formulaStr.replace(/([A-Za-z_]+)/g, ...)`: a defined row field replaces the
identifier (strings quoted with single quotes, other values via `String`),
an undefined one is left as-is.  (The preceding `columns.forEach` loop in
the source discards its `replace` results and has no effect.) -/
def identSubstF (row : Row) : ℕ → List Char → List Char
  | 0, s => s
  | _ + 1, [] => []
  | n + 1, c :: cs =>
    if isIdentCh c then
      let run := (c :: cs).takeWhile isIdentCh
      let rest := (c :: cs).drop run.length
      let rep := match jsGet row (String.mk run) with
        | some (.vStr s) => '\'' :: (s.data ++ ['\''])
        | some v => (jsToString v).data
        | none => run
      rep ++ identSubstF row n rest
    else c :: identSubstF row n cs

/-- The identifier-substitution pass with adequate fuel. -/
def identSubst (row : Row) (s : List Char) : List Char :=
  identSubstF row s.length s

/-- Model of the JS `eval` builtin as applied to the fully rewritten formula
text: the literal forms the rewriting produces evaluate to themselves
(numbers, single-quoted strings, booleans; an all-whitespace text evaluates
to `undefined`); everything else — in particular text still containing
unresolved identifiers — is modelled as an evaluation failure (`none`),
which the enclosing `catch` turns into `null`. -/
def jsEval (s : List Char) : Option Value :=
  let t := jsTrimChars s
  if t.isEmpty then some .vUndef
  else if t = "true".data then some (.vBool true)
  else if t = "false".data then some (.vBool false)
  else
    match t with
    | '\'' :: rest =>
        if rest ≠ [] && rest.getLast? == some '\'' &&
            (rest.take (rest.length - 1)).all (fun c => !(c == '\'')) then
          some (.vStr (String.mk (rest.take (rest.length - 1))))
        else none
    | _ =>
        match parseSigned t with
        | some q => some (.vNum q)
        | none => none

/-- Formula configuration (`FormulaConfig` in the source). -/
structure FormulaConfig where
  name : String
  formula : String
deriving DecidableEq, Repr

/-- Application of one formula: each row independently gets the new field,
whose value is the evaluation result, or `null` on evaluation failure. -/
def applyOneFormula (cfg : FormulaConfig) (data : List Row) : List Row :=
  mapIdxFrom 0 (fun idx row =>
    let fstr := rewriteFormula data row idx cfg.formula.data
    let estr := identSubst row fstr
    let result := match jsEval estr with
      | some v => v
      | none => Value.vNull
    jsInsert row cfg.name result) data

/-- The formula stage: formulas applied in declaration order, each over the
output of the previous. -/
def formulasStage (cfgs : List FormulaConfig) (data : List Row) : List Row :=
  cfgs.foldl (fun d cfg => applyOneFormula cfg d) data

/-- The whole pipeline of `applyTransformations`: filter, sort, aggregate,
pivot, formulas, in that fixed order. -/
def applyTransformations (filters : List FilterConfig)
    (sorts : List SortConfig) (agg : Option AggregationConfig)
    (piv : Option PivotConfig) (formulas : List FormulaConfig)
    (raw : List Row) : List Row :=
  let d1 := filterStage filters raw
  let d2 := sortStage sorts d1
  let d3 := match agg with
    | some a => aggregationStage a d2
    | none => d2
  let d4 := pivotStage piv d3
  formulasStage formulas d4

/-! ### Basic lemmas about rows -/

theorem find?_jsInsert_self (r : Row) (k : String) (v : Value) :
    (jsInsert r k v).find? (fun p => p.1 == k) = some (k, v) := by
  induction r with
  | nil => simp [jsInsert, List.find?]
  | cons p r ih =>
      by_cases hp : p.1 = k
      · simp [jsInsert, List.find?, hp]
      · simp [jsInsert, List.find?, hp, ih]

theorem find?_jsInsert_ne (r : Row) (k k' : String) (v : Value)
    (h : k ≠ k') :
    (jsInsert r k' v).find? (fun p => p.1 == k)
      = r.find? (fun p => p.1 == k) := by
  have hne : (k' == k) = false := beq_eq_false_iff_ne.mpr (Ne.symm h)
  induction r with
  | nil => simp [jsInsert, List.find?, hne]
  | cons p r ih =>
      by_cases hp : p.1 = k'
      · have h1 : (p.1 == k') = true := beq_iff_eq.mpr hp
        have h2 : (p.1 == k) = false :=
          beq_eq_false_iff_ne.mpr (by rw [hp]; exact Ne.symm h)
        simp [jsInsert, List.find?, h1, h2, hne]
      · have h1 : (p.1 == k') = false := beq_eq_false_iff_ne.mpr hp
        cases hk : (p.1 == k) with
        | true => simp [jsInsert, List.find?, h1, hk]
        | false => simp [jsInsert, List.find?, h1, hk, ih]

theorem jsGet_jsInsert_self (r : Row) (k : String) (v : Value)
    (hv : v ≠ .vUndef) : jsGet (jsInsert r k v) k = some v := by
  rw [jsGet, find?_jsInsert_self]
  cases v <;> simp_all

theorem jsGet_jsInsert_undef (r : Row) (k : String) :
    jsGet (jsInsert r k .vUndef) k = none := by
  rw [jsGet, find?_jsInsert_self]

theorem jsGet_jsInsert_ne (r : Row) (k k' : String) (v : Value)
    (h : k ≠ k') : jsGet (jsInsert r k' v) k = jsGet r k := by
  rw [jsGet, find?_jsInsert_ne r k k' v h, jsGet]

/-! ### Lemmas about the stable insertion sort -/

theorem insertLe_perm {α : Type} (le : α → α → Bool) (x : α) (l : List α) :
    (insertLe le x l).Perm (x :: l) := by
  induction l with
  | nil => simp [insertLe]
  | cons y ys ih =>
      by_cases h : le x y
      · simp [insertLe, h]
      · simp only [insertLe, h, Bool.false_eq_true, if_false]
        exact (ih.cons y).trans (List.Perm.swap x y ys)

theorem sortLe_perm {α : Type} (le : α → α → Bool) (l : List α) :
    (sortLe le l).Perm l := by
  induction l with
  | nil => simp [sortLe]
  | cons x xs ih =>
      exact (insertLe_perm le x (sortLe le xs)).trans (ih.cons x)

theorem sublist_insertLe {α : Type} (le : α → α → Bool) (x : α)
    {s l : List α} (h : s.Sublist l) : s.Sublist (insertLe le x l) := by
  induction l generalizing s with
  | nil =>
      have hs : s = [] := List.sublist_nil.mp h
      subst hs
      exact List.nil_sublist _
  | cons y ys ih =>
      by_cases hx : le x y
      · simp only [insertLe, hx, if_true]
        exact h.cons x
      · simp only [insertLe, hx, Bool.false_eq_true, if_false]
        cases h with
        | cons _ h' => exact (ih h').cons y
        | cons₂ _ h' => exact (ih h').cons₂ y

theorem pair_sublist_insertLe {α : Type} (le : α → α → Bool) (a b : α)
    {l : List α} (hb : b ∈ l) (hle : le a b = true) :
    [a, b].Sublist (insertLe le a l) := by
  induction l with
  | nil => cases hb
  | cons y ys ih =>
      by_cases hy : le a y
      · simp only [insertLe, hy, if_true]
        exact (List.singleton_sublist.mpr hb).cons₂ a
      · simp only [insertLe, hy, Bool.false_eq_true, if_false]
        have hb' : b ∈ ys := by
          cases hb with
          | head => exact absurd hle hy
          | tail _ h => exact h
        exact (ih hb').cons y

theorem pair_sublist_sortLe {α : Type} (le : α → α → Bool) {l : List α}
    {a b : α} (h : [a, b].Sublist l) (hle : le a b = true) :
    [a, b].Sublist (sortLe le l) := by
  induction l with
  | nil => exact absurd (List.sublist_nil.mp h) (by simp)
  | cons x xs ih =>
      cases h with
      | cons _ h' => exact sublist_insertLe le x (ih h')
      | cons₂ _ h' =>
          have hb : b ∈ sortLe le xs :=
            ((sortLe_perm le xs).mem_iff).mpr (List.singleton_sublist.mp h')
          exact pair_sublist_insertLe le a b hb hle

theorem insertLe_of_true {α : Type} (le : α → α → Bool)
    (x : α) (l : List α) (h : ∀ a b, le a b = true) :
    insertLe le x l = x :: l := by
  cases l with
  | nil => rfl
  | cons y ys => simp [insertLe, h x y]

theorem sortLe_of_true {α : Type} (le : α → α → Bool) (l : List α)
    (h : ∀ a b, le a b = true) : sortLe le l = l := by
  induction l with
  | nil => rfl
  | cons x xs ih => rw [sortLe, ih, insertLe_of_true le x xs h]

theorem map_insertLe {α β : Type} (f : α → β) (le' : α → α → Bool)
    (le : β → β → Bool) (hc : ∀ a b, le' a b = le (f a) (f b)) (x : α)
    (l : List α) :
    (insertLe le' x l).map f = insertLe le (f x) (l.map f) := by
  induction l with
  | nil => rfl
  | cons y ys ih =>
      by_cases h : le' x y
      · have h2 : le (f x) (f y) = true := by rw [← hc]; exact h
        simp [insertLe, h, h2]
      · have h2 : le (f x) (f y) = false := by
          rw [← hc]; exact Bool.eq_false_iff.mpr h
        simp [insertLe, h, h2, ih]

theorem map_sortLe {α β : Type} (f : α → β) (le' : α → α → Bool)
    (le : β → β → Bool) (hc : ∀ a b, le' a b = le (f a) (f b))
    (l : List α) : (sortLe le' l).map f = sortLe le (l.map f) := by
  induction l with
  | nil => rfl
  | cons x xs ih =>
      rw [sortLe, map_insertLe f le' le hc, ih, List.map_cons, sortLe]

theorem insertLe_sorted (x : ℚ) (l : List ℚ)
    (h : l.Sorted (· ≤ ·)) :
    (insertLe (fun a b => decide (a ≤ b)) x l).Sorted (· ≤ ·) := by
  induction l with
  | nil => simp [insertLe]
  | cons y ys ih =>
      rcases List.sorted_cons.mp h with ⟨hy, hys⟩
      by_cases hxy : x ≤ y
      · simp only [insertLe, decide_eq_true_eq, hxy, if_true]
        refine List.sorted_cons.mpr ⟨fun b hb => ?_, h⟩
        rcases List.mem_cons.mp hb with rfl | hb2
        · exact hxy
        · exact le_trans hxy (hy _ hb2)
      · simp only [insertLe, decide_eq_true_eq, hxy, if_false]
        refine List.sorted_cons.mpr ⟨fun b hb => ?_, ih hys⟩
        have hb' : b ∈ x :: ys :=
          ((insertLe_perm (fun a b => decide (a ≤ b)) x ys).mem_iff).mp hb
        rcases List.mem_cons.mp hb' with rfl | hb2
        · exact le_of_not_le hxy
        · exact hy _ hb2

theorem sortLe_sorted (l : List ℚ) :
    (sortLe (fun a b => decide (a ≤ b)) l).Sorted (· ≤ ·) := by
  induction l with
  | nil => simp [sortLe]
  | cons x xs ih => exact insertLe_sorted x _ ih

/-! ### Miscellaneous list and string lemmas -/

theorem dedupFirst_foldl_nodup (l : List String) :
    ∀ acc : List String, acc.Nodup →
      (l.foldl (fun acc x => if x ∈ acc then acc else acc ++ [x])
        acc).Nodup := by
  induction l with
  | nil => intro acc h; simpa using h
  | cons x xs ih =>
      intro acc h
      simp only [List.foldl_cons]
      by_cases hx : x ∈ acc
      · rw [if_pos hx]; exact ih acc h
      · rw [if_neg hx]
        refine ih _ ?_
        refine List.nodup_append.mpr ⟨h, List.nodup_singleton x, ?_⟩
        intro a ha hb
        rcases List.mem_singleton.mp hb with rfl
        exact hx ha

theorem dedupFirst_nodup (l : List String) : (dedupFirst l).Nodup :=
  dedupFirst_foldl_nodup l [] List.nodup_nil

theorem jsOwnKeysOrder_perm (ks : List String) :
    (jsOwnKeysOrder ks).Perm ks := by
  unfold jsOwnKeysOrder
  exact ((sortLe_perm _ (ks.filter isArrayIndexKey)).append
    (List.Perm.refl _)).trans (List.filter_append_perm isArrayIndexKey ks)

theorem jsOwnKeysOrder_nodup (ks : List String) (h : ks.Nodup) :
    (jsOwnKeysOrder ks).Nodup := by
  unfold jsOwnKeysOrder
  refine List.nodup_append.mpr ⟨?_, ?_, ?_⟩
  · exact ((sortLe_perm _ _).nodup_iff).mpr (h.filter _)
  · exact h.filter _
  · intro a ha hb
    have ha' : a ∈ ks.filter isArrayIndexKey :=
      ((sortLe_perm _ _).mem_iff).mp ha
    have h1 : isArrayIndexKey a = true := (List.mem_filter.mp ha').2
    have h2 : (!isArrayIndexKey a) = true := (List.mem_filter.mp hb).2
    rw [h1] at h2
    simp at h2

theorem jsOwnKeysOrder_of_no_index (ks : List String)
    (h : ∀ k ∈ ks, ¬ isArrayIndexKey k) :
    jsOwnKeysOrder ks = ks := by
  unfold jsOwnKeysOrder
  have h1 : ks.filter isArrayIndexKey = [] := by
    apply List.filter_eq_nil_iff.mpr
    intro a ha
    simpa using h a ha
  have h2 : ks.filter (fun k => !isArrayIndexKey k) = ks := by
    apply List.filter_eq_self.mpr
    intro a ha
    simpa using h a ha
  rw [h1, h2, sortLe, List.nil_append]

theorem foldl_min_spec (xs : List ℚ) : ∀ x : ℚ,
    (xs.foldl min x ≤ x ∧ ∀ a ∈ xs, xs.foldl min x ≤ a) ∧
      (xs.foldl min x = x ∨ xs.foldl min x ∈ xs) := by
  induction xs with
  | nil => intro x; simp
  | cons y ys ih =>
      intro x
      simp only [List.foldl_cons]
      rcases ih (min x y) with ⟨⟨hle, hall⟩, hmem⟩
      refine ⟨⟨le_trans hle (min_le_left x y), ?_⟩, ?_⟩
      · intro a ha
        rcases List.mem_cons.mp ha with rfl | ha2
        · exact le_trans hle (min_le_right x a)
        · exact hall a ha2
      · rcases hmem with heq | hmem2
        · rcases min_choice x y with hm | hm
          · exact Or.inl (heq.trans hm)
          · exact Or.inr (by rw [heq, hm]; exact List.mem_cons_self y ys)
        · exact Or.inr (List.mem_cons_of_mem y hmem2)

theorem foldl_max_spec (xs : List ℚ) : ∀ x : ℚ,
    (x ≤ xs.foldl max x ∧ ∀ a ∈ xs, a ≤ xs.foldl max x) ∧
      (xs.foldl max x = x ∨ xs.foldl max x ∈ xs) := by
  induction xs with
  | nil => intro x; simp
  | cons y ys ih =>
      intro x
      simp only [List.foldl_cons]
      rcases ih (max x y) with ⟨⟨hle, hall⟩, hmem⟩
      refine ⟨⟨le_trans (le_max_left x y) hle, ?_⟩, ?_⟩
      · intro a ha
        rcases List.mem_cons.mp ha with rfl | ha2
        · exact le_trans (le_max_right x a) hle
        · exact hall a ha2
      · rcases hmem with heq | hmem2
        · rcases max_choice x y with hm | hm
          · exact Or.inl (heq.trans hm)
          · exact Or.inr (by rw [heq, hm]; exact List.mem_cons_self y ys)
        · exact Or.inr (List.mem_cons_of_mem y hmem2)

theorem listMinQ_spec (xs : List ℚ) (h : xs ≠ []) :
    ∃ q, listMinQ xs = some q ∧ q ∈ xs ∧ ∀ a ∈ xs, q ≤ a := by
  cases xs with
  | nil => exact absurd rfl h
  | cons x ys =>
      rcases foldl_min_spec ys x with ⟨⟨hle, hall⟩, hmem⟩
      refine ⟨ys.foldl min x, rfl, ?_, ?_⟩
      · rcases hmem with heq | hm
        · rw [heq]; exact List.mem_cons_self x ys
        · exact List.mem_cons_of_mem x hm
      · intro a ha
        rcases List.mem_cons.mp ha with rfl | ha2
        · exact hle
        · exact hall a ha2

theorem listMaxQ_spec (xs : List ℚ) (h : xs ≠ []) :
    ∃ q, listMaxQ xs = some q ∧ q ∈ xs ∧ ∀ a ∈ xs, a ≤ q := by
  cases xs with
  | nil => exact absurd rfl h
  | cons x ys =>
      rcases foldl_max_spec ys x with ⟨⟨hle, hall⟩, hmem⟩
      refine ⟨ys.foldl max x, rfl, ?_, ?_⟩
      · rcases hmem with heq | hm
        · rw [heq]; exact List.mem_cons_self x ys
        · exact List.mem_cons_of_mem x hm
      · intro a ha
        rcases List.mem_cons.mp ha with rfl | ha2
        · exact hle
        · exact hall a ha2

theorem strAppend_right_cancel {a b c : String} (h : a ++ c = b ++ c) :
    a = b := by
  have hd : a.data ++ c.data = b.data ++ c.data := by
    rw [← String.data_append, ← String.data_append, h]
  have h2 : a.data = b.data := List.append_cancel_right hd
  cases a; cases b; exact congrArg String.mk h2

theorem mapIdxFrom_getElem? {α β : Type} (f : ℕ → α → β) (l : List α) :
    ∀ (i j : ℕ), (mapIdxFrom i f l)[j]? = (l[j]?).map (f (i + j)) := by
  induction l with
  | nil => intro i j; simp [mapIdxFrom]
  | cons a as ih =>
      intro i j
      cases j with
      | zero => simp [mapIdxFrom]
      | succ j' =>
          simp only [mapIdxFrom, List.getElem?_cons_succ]
          rw [show i + (j' + 1) = (i + 1) + j' by omega]
          exact ih (i + 1) j'

theorem pair_sublist_get {α : Type} :
    ∀ (l : List α) (i j : ℕ) (hij : i < j) (hj : j < l.length),
      [l.get ⟨i, lt_trans hij hj⟩, l.get ⟨j, hj⟩].Sublist l := by
  intro l
  induction l with
  | nil => intro i j hij hj; simp at hj
  | cons x xs ih =>
      intro i j hij hj
      cases i with
      | zero =>
          cases j with
          | zero => exact absurd hij (lt_irrefl 0)
          | succ j' =>
              have hj' : j' < xs.length := by
                simpa using hj
              have : (x :: xs).get ⟨j' + 1, hj⟩ = xs.get ⟨j', hj'⟩ := rfl
              rw [this]
              exact (List.singleton_sublist.mpr (xs.get_mem j' hj')).cons₂ x
      | succ i' =>
          cases j with
          | zero => exact absurd hij (by omega)
          | succ j' =>
              have hij' : i' < j' := by omega
              have hj' : j' < xs.length := by simpa using hj
              exact (ih i' j' hij' hj').cons x

/-! ### Lemmas about the regex scanners -/

theorem ciStarts_append (p rest : List Char) :
    ciStarts p (p ++ rest) = true := by
  induction p with
  | nil => rfl
  | cons c cs ih => simp [ciStarts, ciEq, ih]

theorem splitStop_append (stop : Char) (body rest : List Char)
    (h : stop ∉ body) :
    splitStop stop (body ++ stop :: rest) = some (body, rest) := by
  induction body with
  | nil => simp [splitStop]
  | cons c cs ih =>
      have hc : ¬(c == stop) = true := by
        simp only [beq_iff_eq]
        intro hcc
        exact h (hcc ▸ List.mem_cons_self c cs)
      have hcs : stop ∉ cs := fun hm => h (List.mem_cons_of_mem c hm)
      simp [splitStop, hc, ih hcs]

theorem replaceCallsF_nil (name : List Char) (f : List Char → List Char) :
    ∀ n, replaceCallsF name f n [] = []
  | 0 => rfl
  | _ + 1 => rfl

theorem tryCall_exact (name : List Char) (body : List Char)
    (hb : body ≠ []) (hb2 : ')' ∉ body) :
    tryCall name (name ++ '(' :: (body ++ [')'])) = some (body, []) := by
  have e1 : name ++ '(' :: (body ++ [')'])
      = (name ++ ['(']) ++ (body ++ ')' :: []) := by simp
  rw [tryCall, e1, ciStarts_append, if_pos rfl]
  have e2 : name.length + 1 = (name ++ ['(']).length := by simp
  rw [e2, List.drop_left, splitStop1, splitStop_append ')' body [] hb2]
  simp [hb]

theorem replaceCalls_exact (name : List Char) (f : List Char → List Char)
    (body : List Char) (hb : body ≠ []) (hb2 : ')' ∉ body) :
    replaceCalls name f (name ++ '(' :: (body ++ [')'])) = f body := by
  have htry := tryCall_exact name body hb hb2
  cases hs : name ++ '(' :: (body ++ [')']) with
  | nil =>
      exact absurd hs (by simp)
  | cons c cs =>
      rw [replaceCalls, List.length_cons]
      rw [hs] at htry
      simp only [replaceCallsF, htry]
      rw [replaceCallsF_nil, List.append_nil]

theorem string_mk_data (s : String) : String.mk s.data = s := by
  cases s; rfl

/-! ### Claim theorems -/

/-- C6: for every row and every filter config whose operator is not one of
the eleven known operators, the per-row predicate evaluates to true (the
filter fails open and the row is kept). -/
theorem filter_unknown_operator_keeps_row (cfg : FilterConfig) (row : Row)
    (h : cfg.operator ∉ ["equals", "contains", "startsWith", "endsWith",
      "gt", "lt", "gte", "lte", "between", "isEmpty", "isNotEmpty"]) :
    filterPred cfg row = true := by
  simp only [List.mem_cons, List.not_mem_nil, or_false, not_or] at h
  obtain ⟨h1, h2, h3, h4, h5, h6, h7, h8, h9, h10, h11⟩ := h
  simp [filterPred, h1, h2, h3, h4, h5, h6, h7, h8, h9, h10, h11]

/-- C6 witness: a concrete unknown operator keeps a concrete row. -/
theorem filter_unknown_operator_keeps_row_witness :
    (("fuzzy" : String) ∉ ["equals", "contains", "startsWith", "endsWith",
      "gt", "lt", "gte", "lte", "between", "isEmpty", "isNotEmpty"]) ∧
    filterPred ⟨"c", "fuzzy", "v", none⟩ [("c", .vNum 1)] = true :=
  ⟨by decide, filter_unknown_operator_keeps_row _ _ (by decide)⟩

/-- C9: a column whose sampled non-empty values all pass the numeric test is
classified as `number` — the number check precedes the boolean check, so
this holds even when every value is also a valid boolean token. -/
theorem detect_number_before_boolean (values : List Value)
    (hne : values.filter (fun v => !(isEmptyVal v)) ≠ [])
    (hnum : ∀ v ∈ (values.filter (fun v => !(isEmptyVal v))).take 100,
      (jsNumber (some v)).isSome = true ∧ v ≠ .vStr "") :
    detectColumnType values = .number := by
  have h1 : (values.filter (fun v => !(isEmptyVal v))).isEmpty = false := by
    simpa [List.isEmpty_iff] using hne
  have h2 : ((values.filter (fun v => !(isEmptyVal v))).take 100).all
      (fun v => (jsNumber (some v)).isSome && !(v == .vStr "")) = true := by
    rw [List.all_eq_true]
    intro v hv
    rcases hnum v hv with ⟨ha, hb⟩
    simp [ha, hb]
  simp [detectColumnType, h1, h2]

/-- C9 witness: the column `["0","1","0"]` — all-numeric and all-boolean
tokens — is inferred as `number`, not `boolean`. -/
theorem detect_number_before_boolean_witness :
    ([Value.vStr "0", .vStr "1", .vStr "0"].filter
        (fun v => !(isEmptyVal v)) ≠ []) ∧
    detectColumnType [.vStr "0", .vStr "1", .vStr "0"] = .number :=
  ⟨by decide, detect_number_before_boolean _ (by decide) (by decide)⟩

/-- C1: the IF-condition regex matches the HTML-escaped operator tokens
`&gt;` `&lt;` `&gt;=` `&lt;=`, not the literal characters `>` `<` `>=` `<=`.
With `x = 10` the condition `x > 5` holds numerically (last conjunct, via
the code's own comparator), yet the formula `IF(x > 5, 1, 2)` yields the
false branch `2` because the literal `>` never matches and the unrewritten
condition fails evaluation; the escaped spelling `x &gt; 5` yields the true
branch, and the unescaped `==` (which the regex does list literally) works
as documented. -/
theorem if_gt_condition_requires_escaped_tokens :
    formulasStage [⟨"y", "IF(x > 5, 1, 2)"⟩] [[("x", .vNum 10)]]
        = [[("x", .vNum 10), ("y", .vNum 2)]] ∧
    formulasStage [⟨"y", "IF(x &gt; 5, 1, 2)"⟩] [[("x", .vNum 10)]]
        = [[("x", .vNum 10), ("y", .vNum 1)]] ∧
    formulasStage [⟨"y", "IF(x == 10, 1, 2)"⟩] [[("x", .vNum 10)]]
        = [[("x", .vNum 10), ("y", .vNum 1)]] ∧
    evalCondOp .gt (jsNumber (jsGet [("x", .vNum 10)] "x"))
        (jsStrNumber "5") = true := by
  refine ⟨?_, ?_, ?_, ?_⟩ <;> with_unfolding_all decide

/-- C2 counterexample: with grouping values `10` then `2`, the aggregation
output rows are ordered `"2"`, `"10"` (ascending array-index key order of
the grouped object), not the first-appearance order `"10"`, `"2"`. -/
theorem agg_rows_not_in_first_appearance_order :
    (aggregationStage ⟨"a", .count⟩
        [[("a", .vNum 10)], [("a", .vNum 2)]]).map (fun r => jsGet r "a")
      = [some (.vStr "2"), some (.vStr "10")] ∧
    aggFirstKeys ⟨"a", .count⟩ [[("a", .vNum 10)], [("a", .vNum 2)]]
      = ["10", "2"] ∧
    ([some (Value.vStr "2"), some (Value.vStr "10")]
      ≠ [some (Value.vStr "10"), some (Value.vStr "2")]) := by
  refine ⟨?_, ?_, ?_⟩ <;> with_unfolding_all decide

/-- C2 (amended): the aggregation stage emits exactly one summary row per
distinct string-form group key (the ordered key list is duplicate-free and a
permutation of the distinct keys in first-appearance order), and the rows
appear in JS own-property order: canonical array-index keys first in
ascending numeric order, then the remaining keys in first-appearance order;
when no key is an array-index string this coincides with first-appearance
order. -/
theorem agg_one_row_per_key_in_js_key_order (cfg : AggregationConfig)
    (data : List Row) (hc1 : cfg.column ≠ "_count")
    (hc2 : cfg.column ≠ "_value") :
    (aggregationStage cfg data).map (fun r => jsGet r cfg.column)
        = (aggKeysOrdered cfg data).map (fun k => some (.vStr k)) ∧
    (aggKeysOrdered cfg data).Perm (aggFirstKeys cfg data) ∧
    (aggKeysOrdered cfg data).Nodup ∧
    ((∀ k ∈ aggFirstKeys cfg data, ¬ isArrayIndexKey k) →
        aggKeysOrdered cfg data = aggFirstKeys cfg data) := by
  refine ⟨?_, jsOwnKeysOrder_perm _,
    jsOwnKeysOrder_nodup _ (dedupFirst_nodup _),
    fun h => jsOwnKeysOrder_of_no_index _ h⟩
  have hbase : ∀ (k : String) (cnt : Value),
      jsGet (jsInsert (jsInsert [] cfg.column (.vStr k)) "_count" cnt)
        cfg.column = some (.vStr k) := by
    intro k cnt
    rw [jsGet_jsInsert_ne _ _ _ _ hc1, jsGet_jsInsert_self]
    simp
  have key : ∀ k, jsGet (aggRow cfg data k) cfg.column = some (.vStr k) := by
    intro k
    unfold aggRow
    cases hop : cfg.operation <;>
      simp only [] <;>
      first
      | (rw [jsGet_jsInsert_ne _ _ _ _ hc2, hbase])
      | (exact hbase _ _)
      | (rcases hsplit : (sortLe (fun a b => decide (a ≤ b))
            (aggVals cfg data k)).get? ((aggVals cfg data k).length / 2) with
            _ | q <;>
          simp only [hsplit] <;> rw [jsGet_jsInsert_ne _ _ _ _ hc2, hbase])
      | (rcases hsplit : listMinQ (aggVals cfg data k) with _ | q <;>
          simp only [hsplit] <;> rw [jsGet_jsInsert_ne _ _ _ _ hc2, hbase])
      | (rcases hsplit : listMaxQ (aggVals cfg data k) with _ | q <;>
          simp only [hsplit] <;> rw [jsGet_jsInsert_ne _ _ _ _ hc2, hbase])
  rw [aggregationStage, List.map_map]
  apply List.map_congr_left
  intro k _
  exact key k

/-- C2 witness for the amended theorem, at a non-numeric key. -/
theorem agg_one_row_per_key_in_js_key_order_witness :
    (("a" : String) ≠ "_count" ∧ ("a" : String) ≠ "_value") ∧
    (aggregationStage ⟨"a", .count⟩ [[("a", .vStr "x")]]).map
        (fun r => jsGet r "a")
      = (aggKeysOrdered ⟨"a", .count⟩ [[("a", .vStr "x")]]).map
        (fun k => some (.vStr k)) :=
  ⟨⟨by decide, by decide⟩,
    (agg_one_row_per_key_in_js_key_order ⟨"a", .count⟩
      [[("a", .vStr "x")]] (by decide) (by decide)).1⟩

/-- C3: the SUM rewriting replaces the exact term `SUM(col)` with the string
of the running total of `col`'s numeric-parsed values over rows `0..idx`
inclusive — a prefix sum, not a whole-column sum; in particular the formula
`SUM(x)` over a column `x = [1,2,3]` yields `[1,3,6]` at rows 0, 1, 2. -/
theorem sum_term_is_running_total (data : List Row) (idx : ℕ) (col : String)
    (h1 : col.data ≠ []) (h2 : ')' ∉ col.data) :
    replaceCalls "SUM".data (sumReplacement data idx)
        ("SUM(" ++ col ++ ")").data
      = (jsNumToString (prefixVals data (jsTrimS col) idx).sum).data ∧
    (formulasStage [⟨"s", "SUM(x)"⟩]
        [[("x", .vNum 1)], [("x", .vNum 2)], [("x", .vNum 3)]]).map
        (fun r => jsGet r "s")
      = [some (.vNum 1), some (.vNum 3), some (.vNum 6)] := by
  constructor
  · have e : ("SUM(" ++ col ++ ")").data
        = "SUM".data ++ '(' :: (col.data ++ [')']) := by
      rw [String.data_append, String.data_append]
      rfl
    rw [e, replaceCalls_exact "SUM".data _ col.data h1 h2,
      sumReplacement, string_mk_data]
  · with_unfolding_all decide

/-- C3 witness: the general conjunct at a concrete column and row list. -/
theorem sum_term_is_running_total_witness :
    (("x" : String).data ≠ [] ∧ ')' ∉ ("x" : String).data) ∧
    replaceCalls "SUM".data (sumReplacement [[("x", .vNum 7)]] 0)
        ("SUM(" ++ "x" ++ ")").data
      = (jsNumToString
          (prefixVals [[("x", .vNum 7)]] (jsTrimS "x") 0).sum).data :=
  ⟨⟨by decide, by decide⟩,
    (sum_term_is_running_total [[("x", .vNum 7)]] 0 "x"
      (by decide) (by decide)).1⟩

/-- C10: the LEN replacement substitutes the empty string for any falsy cell
value (`row[col] || ''`), so when the column is present but holds `0`,
`false` or `""`, the term `LEN(col)` rewrites to `"0"`; in particular a cell
holding the number `0` gives `LEN` 0, not 1. -/
theorem len_of_falsy_cell_is_zero (row : Row) (col : String)
    (h1 : col.data ≠ []) (h2 : ')' ∉ col.data)
    (hf : jsGet row (jsTrimS col) = some (.vNum 0) ∨
      jsGet row (jsTrimS col) = some (.vBool false) ∨
      jsGet row (jsTrimS col) = some (.vStr "")) :
    replaceCalls "LEN".data (lenReplacement row)
        ("LEN(" ++ col ++ ")").data = ['0'] ∧
    formulasStage [⟨"l", "LEN(c)"⟩] [[("c", .vNum 0)]]
      = [[("c", .vNum 0), ("l", .vNum 0)]] := by
  constructor
  · have e : ("LEN(" ++ col ++ ")").data
        = "LEN".data ++ '(' :: (col.data ++ [')']) := by
      rw [String.data_append, String.data_append]
      rfl
    rw [e, replaceCalls_exact "LEN".data _ col.data h1 h2,
      lenReplacement, string_mk_data]
    rcases hf with hf | hf | hf <;> rw [hf] <;> with_unfolding_all decide
  · with_unfolding_all decide

/-- C10 witness: a cell holding the number `0`. -/
theorem len_of_falsy_cell_is_zero_witness :
    (("c" : String).data ≠ [] ∧ ')' ∉ ("c" : String).data ∧
      jsGet [("c", Value.vNum 0)] (jsTrimS "c") = some (.vNum 0)) ∧
    replaceCalls "LEN".data (lenReplacement [("c", Value.vNum 0)])
        ("LEN(" ++ "c" ++ ")").data = ['0'] :=
  ⟨⟨by decide, by decide, by with_unfolding_all decide⟩,
    (len_of_falsy_cell_is_zero [("c", Value.vNum 0)] "c" (by decide)
      (by decide) (Or.inl (by with_unfolding_all decide))).1⟩

/-- C7: any evaluation failure of the fully rewritten formula text makes
that row's value for the formula column `null`, with the row's other fields
untouched and every row produced independently from its own input row; in
particular a formula that is just a reference to a nonexistent column
yields `null` for every row while a later formula still evaluates
normally. -/
theorem formula_failure_yields_null (data : List Row) (cfg : FormulaConfig)
    (idx : ℕ) (row : Row) (hrow : data[idx]? = some row)
    (hfail : jsEval (identSubst row
      (rewriteFormula data row idx cfg.formula.data)) = none) :
    (applyOneFormula cfg data)[idx]? = some (jsInsert row cfg.name .vNull) ∧
    (∀ k, k ≠ cfg.name →
      jsGet (jsInsert row cfg.name .vNull) k = jsGet row k) ∧
    formulasStage [⟨"out", "nosuchcol"⟩, ⟨"rownum", "ROW()"⟩]
        [[("x", .vNum 1)], [("x", .vNum 2)]]
      = [[("x", .vNum 1), ("out", .vNull), ("rownum", .vNum 1)],
         [("x", .vNum 2), ("out", .vNull), ("rownum", .vNum 2)]] := by
  refine ⟨?_, fun k hk => jsGet_jsInsert_ne _ _ _ _ hk,
    by with_unfolding_all decide⟩
  rw [applyOneFormula, mapIdxFrom_getElem?, hrow, Option.map_some']
  simp only [Nat.zero_add, hfail]

/-- C7 witness: the unknown-identifier formula `nosuchcol` on a one-row
list. -/
theorem formula_failure_yields_null_witness :
    (([[("x", Value.vNum 1)]] : List Row)[0]? = some [("x", Value.vNum 1)] ∧
      jsEval (identSubst [("x", Value.vNum 1)]
        (rewriteFormula [[("x", Value.vNum 1)]] [("x", Value.vNum 1)] 0
          ("nosuchcol" : String).data)) = none) ∧
    (applyOneFormula ⟨"out", "nosuchcol"⟩ [[("x", Value.vNum 1)]])[0]?
      = some (jsInsert [("x", Value.vNum 1)] "out" .vNull) :=
  ⟨⟨by decide, by with_unfolding_all decide⟩,
    (formula_failure_yields_null [[("x", Value.vNum 1)]]
      ⟨"out", "nosuchcol"⟩ 0 [("x", Value.vNum 1)] (by decide)
      (by with_unfolding_all decide)).1⟩

theorem foldl_jsInsert_lookup (sfx : String) (g : String → Value)
    (hg : ∀ v, g v ≠ .vUndef) :
    ∀ (l : List String) (acc : Row) (val : String), val ∈ l →
      jsGet (l.foldl (fun acc v => jsInsert acc (v ++ sfx) (g v)) acc)
        (val ++ sfx) = some (g val) := by
  have hpres : ∀ (l : List String) (acc : Row) (target : String),
      (∀ v ∈ l, v ++ sfx ≠ target) →
      jsGet (l.foldl (fun acc v => jsInsert acc (v ++ sfx) (g v)) acc)
        target = jsGet acc target := by
    intro l
    induction l with
    | nil => intro acc target _; rfl
    | cons v vs ih =>
        intro acc target h
        rw [List.foldl_cons,
          ih _ _ (fun w hw => h w (List.mem_cons_of_mem v hw)),
          jsGet_jsInsert_ne _ _ _ _
            (Ne.symm (h v (List.mem_cons_self v vs)))]
  intro l
  induction l with
  | nil => intro acc val hval; cases hval
  | cons v vs ih =>
      intro acc val hval
      rw [List.foldl_cons]
      by_cases hmem : val ∈ vs
      · exact ih _ val hmem
      · have hv : val = v := by
          rcases List.mem_cons.mp hval with h | h
          · exact h
          · exact absurd h hmem
        subst hv
        rw [hpres vs _ _ ?_, jsGet_jsInsert_self _ _ _ (hg val)]
        intro w hw heq
        exact hmem (strAppend_right_cancel heq ▸ hw)

/-- C4: the reduction of each aggregation group over the group's
numeric-parsed values: sum is the arithmetic sum, mean the arithmetic mean,
median the entry at index `⌊n/2⌋` of the ascending-sorted values (the sort
used is ascending and a permutation of the values), min/max the numeric
extrema, and count the number of rows in the group, not the count of values
that parsed. -/
theorem agg_reduction_semantics (cfg : AggregationConfig) (data : List Row)
    (key : String) (hk : key ∈ aggKeysOrdered cfg data) :
    aggRow cfg data key ∈ aggregationStage cfg data ∧
    jsGet (aggRow cfg data key) "_count"
        = some (.vNum ((aggGroupRows cfg data key).length : ℚ)) ∧
    (cfg.operation = .sum →
      jsGet (aggRow cfg data key) "_value"
        = some (.vNum (aggVals cfg data key).sum)) ∧
    (cfg.operation = .count →
      jsGet (aggRow cfg data key) "_value"
        = some (.vNum ((aggGroupRows cfg data key).length : ℚ))) ∧
    (cfg.operation = .mean → aggVals cfg data key ≠ [] →
      jsGet (aggRow cfg data key) "_value"
        = some (.vNum ((aggVals cfg data key).sum
            / ((aggVals cfg data key).length : ℚ)))) ∧
    (cfg.operation = .median →
      jsGet (aggRow cfg data key) "_value"
        = ((sortLe (fun a b => decide (a ≤ b)) (aggVals cfg data key)).get?
            ((aggVals cfg data key).length / 2)).map .vNum) ∧
    (sortLe (fun a b => decide (a ≤ b)) (aggVals cfg data key)).Sorted
        (· ≤ ·) ∧
    (sortLe (fun a b => decide (a ≤ b)) (aggVals cfg data key)).Perm
        (aggVals cfg data key) ∧
    (cfg.operation = .min → aggVals cfg data key ≠ [] →
      ∃ q, jsGet (aggRow cfg data key) "_value" = some (.vNum q) ∧
        q ∈ aggVals cfg data key ∧ ∀ x ∈ aggVals cfg data key, q ≤ x) ∧
    (cfg.operation = .max → aggVals cfg data key ≠ [] →
      ∃ q, jsGet (aggRow cfg data key) "_value" = some (.vNum q) ∧
        q ∈ aggVals cfg data key ∧ ∀ x ∈ aggVals cfg data key, x ≤ q) := by
  have hcv : ("_count" : String) ≠ "_value" := by decide
  have hvnum : ∀ q : ℚ, (Value.vNum q) ≠ .vUndef := fun q => by simp
  refine ⟨List.mem_map_of_mem _ hk, ?_, ?_, ?_, ?_, ?_, sortLe_sorted _,
    sortLe_perm _ _, ?_, ?_⟩
  · -- `_count` is the row count, in every operation branch
    simp only [aggRow]
    cases hop : cfg.operation
    case sum =>
      rw [jsGet_jsInsert_ne _ _ _ _ hcv, jsGet_jsInsert_self _ _ _ (hvnum _)]
    case mean =>
      rw [jsGet_jsInsert_ne _ _ _ _ hcv, jsGet_jsInsert_self _ _ _ (hvnum _)]
    case count =>
      rw [jsGet_jsInsert_ne _ _ _ _ hcv, jsGet_jsInsert_self _ _ _ (hvnum _)]
    case std =>
      rw [jsGet_jsInsert_self _ _ _ (hvnum _)]
    case median =>
      rcases hsplit : (sortLe (fun a b => decide (a ≤ b))
          (aggVals cfg data key)).get? ((aggVals cfg data key).length / 2)
        with _ | q <;>
          simp only [hsplit] <;>
          rw [jsGet_jsInsert_ne _ _ _ _ hcv,
            jsGet_jsInsert_self _ _ _ (hvnum _)]
    case min =>
      rcases hsplit : listMinQ (aggVals cfg data key) with _ | q <;>
        simp only [hsplit] <;>
        rw [jsGet_jsInsert_ne _ _ _ _ hcv,
          jsGet_jsInsert_self _ _ _ (hvnum _)]
    case max =>
      rcases hsplit : listMaxQ (aggVals cfg data key) with _ | q <;>
        simp only [hsplit] <;>
        rw [jsGet_jsInsert_ne _ _ _ _ hcv,
          jsGet_jsInsert_self _ _ _ (hvnum _)]
  · intro h
    simp only [aggRow, h]
    rw [jsGet_jsInsert_self _ _ _ (hvnum _)]
  · intro h
    simp only [aggRow, h]
    rw [jsGet_jsInsert_self _ _ _ (hvnum _)]
  · intro h hne
    have hemp : (aggVals cfg data key).isEmpty = false := by
      simpa [List.isEmpty_iff] using hne
    simp only [aggRow, h, hemp, Bool.false_eq_true, if_false]
    rw [jsGet_jsInsert_self _ _ _ (hvnum _)]
  · intro h
    simp only [aggRow, h]
    rcases hsplit : (sortLe (fun a b => decide (a ≤ b))
        (aggVals cfg data key)).get? ((aggVals cfg data key).length / 2)
      with _ | q
    · simp only [hsplit, Option.map_none']
      exact jsGet_jsInsert_undef _ _
    · simp only [hsplit, Option.map_some']
      exact jsGet_jsInsert_self _ _ _ (hvnum _)
  · intro h hne
    obtain ⟨q, hq, hmem, hle⟩ := listMinQ_spec _ hne
    refine ⟨q, ?_, hmem, hle⟩
    simp only [aggRow, h, hq]
    exact jsGet_jsInsert_self _ _ _ (hvnum _)
  · intro h hne
    obtain ⟨q, hq, hmem, hle⟩ := listMaxQ_spec _ hne
    refine ⟨q, ?_, hmem, hle⟩
    simp only [aggRow, h, hq]
    exact jsGet_jsInsert_self _ _ _ (hvnum _)

/-- C4 witness: a group of three rows whose column value `"abc"` never
parses — `_count` and the count reduction are still 3, the row count. -/
theorem agg_reduction_semantics_witness :
    ("abc" ∈ aggKeysOrdered ⟨"a", .count⟩
      [[("a", Value.vStr "abc")], [("a", Value.vStr "abc")],
        [("a", Value.vStr "abc")]]) ∧
    jsGet (aggRow ⟨"a", .count⟩
        [[("a", Value.vStr "abc")], [("a", Value.vStr "abc")],
          [("a", Value.vStr "abc")]] "abc") "_value"
      = some (.vNum ((aggGroupRows ⟨"a", .count⟩
          [[("a", Value.vStr "abc")], [("a", Value.vStr "abc")],
            [("a", Value.vStr "abc")]] "abc").length : ℚ)) :=
  ⟨by decide,
    ((agg_reduction_semantics ⟨"a", .count⟩
      [[("a", Value.vStr "abc")], [("a", Value.vStr "abc")],
        [("a", Value.vStr "abc")]] "abc"
      (by decide)).2.2.2.1) rfl⟩

/-- C5: with pivot aggregation `count`, the emitted field `<value>_count` of
a pivot group's output row holds the number of the group's values that parse
as numbers — not the number of rows in the group. -/
theorem pivot_count_counts_numeric_values (cfg : PivotConfig)
    (data : List Row) (key val : String) (hagg : cfg.aggregation = .count)
    (hval : val ∈ cfg.values) (hr : cfg.rows ≠ []) (hv : cfg.values ≠ [])
    (hk : key ∈ pivotKeysOrdered cfg data) :
    pivotRow cfg data key ∈ pivotStage (some cfg) data ∧
    jsGet (pivotRow cfg data key) (val ++ "_count")
      = some (.vNum ((pivotVals cfg data key val).length : ℚ)) := by
  constructor
  · simp only [pivotStage]
    rw [if_pos]
    · exact List.mem_map_of_mem _ hk
    · simp [List.length_pos, hr, hv]
  · simp only [pivotRow, hagg]
    exact foldl_jsInsert_lookup "_count"
      (fun v => .vNum (((pivotGroupRows cfg data key).filterMap
        (fun r => jsNumber (jsGet r v))).length : ℚ))
      (fun v => by simp) cfg.values _ val hval

/-- C5 witness: a group of two rows of which only one value parses — the
count field is 1, not the row count 2. -/
theorem pivot_count_counts_numeric_values_witness :
    ((⟨["g"], [], ["v"], .count⟩ : PivotConfig).aggregation = .count ∧
      "v" ∈ (⟨["g"], [], ["v"], .count⟩ : PivotConfig).values ∧
      "A" ∈ pivotKeysOrdered ⟨["g"], [], ["v"], .count⟩
        [[("g", Value.vStr "A"), ("v", Value.vStr "zz")],
          [("g", Value.vStr "A"), ("v", Value.vNum 3)]]) ∧
    jsGet (pivotRow ⟨["g"], [], ["v"], .count⟩
        [[("g", Value.vStr "A"), ("v", Value.vStr "zz")],
          [("g", Value.vStr "A"), ("v", Value.vNum 3)]] "A")
        ("v" ++ "_count")
      = some (.vNum ((pivotVals ⟨["g"], [], ["v"], .count⟩
          [[("g", Value.vStr "A"), ("v", Value.vStr "zz")],
            [("g", Value.vStr "A"), ("v", Value.vNum 3)]] "A" "v").length
          : ℚ)) :=
  ⟨⟨rfl, by decide, by decide⟩,
    (pivot_count_counts_numeric_values ⟨["g"], [], ["v"], .count⟩
      [[("g", Value.vStr "A"), ("v", Value.vStr "zz")],
        [("g", Value.vStr "A"), ("v", Value.vNum 3)]] "A" "v" rfl
      (by decide) (by decide) (by decide) (by decide)).2⟩

/-- C8: the sort stage is stable — two rows that tie under the composite
comparator on every sort key keep their relative input order (stated over
the index-decorated row list, whose sorted form projects onto the sort
stage's output) — and an empty key list leaves the sequence untouched. -/
theorem sort_equal_keys_keep_input_order (keys : List SortConfig)
    (data : List Row) (i j : ℕ) (hij : i < j) (hj : j < data.length)
    (htie : compareRows keys (data.get ⟨i, lt_trans hij hj⟩)
      (data.get ⟨j, hj⟩) = 0) :
    [(i, data.get ⟨i, lt_trans hij hj⟩), (j, data.get ⟨j, hj⟩)].Sublist
      (sortLe (fun p q : ℕ × Row => decide (compareRows keys p.2 q.2 ≤ 0))
        data.enum) ∧
    (sortLe (fun p q : ℕ × Row => decide (compareRows keys p.2 q.2 ≤ 0))
        data.enum).map Prod.snd = sortStage keys data ∧
    (keys = [] → sortStage keys data = data) := by
  refine ⟨?_, ?_, ?_⟩
  · have hlen : j < data.enum.length := by
      simpa [List.enum_length] using hj
    have hpair := pair_sublist_get data.enum i j hij hlen
    have e1 : data.enum.get ⟨i, lt_trans hij hlen⟩
        = (i, data.get ⟨i, lt_trans hij hj⟩) := by
      simp [List.get_eq_getElem, List.getElem_enum]
    have e2 : data.enum.get ⟨j, hlen⟩ = (j, data.get ⟨j, hj⟩) := by
      simp [List.get_eq_getElem, List.getElem_enum]
    rw [e1, e2] at hpair
    refine pair_sublist_sortLe _ hpair ?_
    have h0 := htie
    simp only [List.get_eq_getElem] at h0
    simp [h0]
  · by_cases hk : keys = []
    · subst hk
      have hle : ∀ a b : ℕ × Row,
          (fun p q : ℕ × Row =>
            decide (compareRows [] p.2 q.2 ≤ 0)) a b = true := by
        intro a b; simp [compareRows]
      rw [sortLe_of_true _ _ hle, List.enum_map_snd]
      rfl
    · rw [map_sortLe Prod.snd _
        (fun a b => decide (compareRows keys a b ≤ 0)) (fun a b => rfl),
        List.enum_map_snd, sortStage]
      have hne : keys.isEmpty = false := by
        simpa [List.isEmpty_iff] using hk
      rw [hne]
      simp
  · intro h
    subst h
    rfl

/-- C8 witness: two rows tying on the single ascending key `a` stay in
input order in the sorted decorated list. -/
theorem sort_equal_keys_keep_input_order_witness :
    ((0 : ℕ) < 1 ∧ (1 : ℕ) < 2 ∧
      compareRows [⟨"a", SortDir.asc⟩]
        [("a", Value.vNum 1), ("b", Value.vStr "y")]
        [("a", Value.vNum 1), ("b", Value.vStr "z")] = 0) ∧
    [((0 : ℕ), ([("a", Value.vNum 1), ("b", Value.vStr "y")] : Row)),
      (1, [("a", Value.vNum 1), ("b", Value.vStr "z")])].Sublist
      (sortLe
        (fun p q : ℕ × Row =>
          decide (compareRows [⟨"a", SortDir.asc⟩] p.2 q.2 ≤ 0))
        ([[("a", Value.vNum 1), ("b", Value.vStr "y")],
          [("a", Value.vNum 1), ("b", Value.vStr "z")]] : List Row).enum) :=
  ⟨⟨by decide, by decide, by with_unfolding_all decide⟩,
    (sort_equal_keys_keep_input_order [⟨"a", SortDir.asc⟩]
      [[("a", Value.vNum 1), ("b", Value.vStr "y")],
        [("a", Value.vNum 1), ("b", Value.vStr "z")]] 0 1
      (by decide) (by decide) (by with_unfolding_all decide)).1⟩
